import Mathlib

/-!
Verification development for the `scd` package (safe-csv-db).

The package stores an in-memory table `rows : [][]string` guarded by a
mutex, with CRUD operations that linearly scan the rows by a column
index and a string value, and a background goroutine (`ListenChange`)
that persists the rows to a csv file whenever a capacity-1 `changed`
channel receives a notification.

We embed the row-level operations as pure functions over `List Row`
(`Row := List String`).  Go slice indexing `rows[i]` / `r[col]` is
rendered with `List.getD`; `rows[i] = x` with `List.set`;
`rows[len(rows)-1]` with `List.getLastD`; `rows = rows[:len(rows)-1]`
with `List.dropLast`.  The user-supplied `RecordType` codec
(`ToRow`/`FromRow`, both fallible) is a pair of parameters
`toRow : Rec → Except String Row` and `fromRow : Row → Except String Rec`.
Each mutating operation returns the table rows after the call together
with `none` (success) or `some e` (the returned error), so that the
state of the table after a failed call is part of the model.
-/

namespace Scd

/-- A csv row: ordered sequence of string fields. -/
abbrev Row : Type := List String

/-- Errors surfaced by the table operations: the two package-level
errors `FindOutOfIndex` and `ValueNotFound` of errors.go, plus
`codec` wrapping an error string returned by the user's
`ToRow`/`FromRow`. -/
inductive DbError : Type where
  | findOutOfIndex
  | valueNotFound
  | codec (msg : String)
deriving DecidableEq, Repr

/-- Embedding of the scan loop of `Table.Select` (scd.go): walk the rows
in order; a row shorter than `col+1` aborts with `FindOutOfIndex`; the
first row whose field `col` equals `id` is decoded with `FromRow`
(decode failure propagates); reaching the end returns Go's `(nil, nil)`,
i.e. `.ok none`. -/
def selectGo {Rec : Type} (fromRow : Row → Except String Rec) (col : Nat) (id : String) :
    List Row → Except DbError (Option Rec)
  | [] => .ok none
  | r :: rest =>
    if r.length ≤ col then .error .findOutOfIndex
    else if r.getD col "" = id then
      match fromRow r with
      | .error e => .error (.codec e)
      | .ok rec => .ok (some rec)
    else selectGo fromRow col id rest

/-- `Table.Select` (scd.go). -/
def Select {Rec : Type} (fromRow : Row → Except String Rec) (col : Nat) (id : String)
    (rows : List Row) : Except DbError (Option Rec) :=
  selectGo fromRow col id rows

/-- Embedding of the scan loop of `Table.SelectAll` (scd.go): collects
the decoded matches in order; same short-row and decode-failure
behaviour as `Select`. -/
def selectAllGo {Rec : Type} (fromRow : Row → Except String Rec) (col : Nat) (v : String) :
    List Row → Except DbError (List Rec)
  | [] => .ok []
  | r :: rest =>
    if r.length ≤ col then .error .findOutOfIndex
    else if r.getD col "" = v then
      match fromRow r with
      | .error e => .error (.codec e)
      | .ok rec =>
        match selectAllGo fromRow col v rest with
        | .error e => .error e
        | .ok recs => .ok (rec :: recs)
    else selectAllGo fromRow col v rest

/-- `Table.SelectAll` (scd.go). -/
def SelectAll {Rec : Type} (fromRow : Row → Except String Rec) (col : Nat) (v : String)
    (rows : List Row) : Except DbError (List Rec) :=
  selectAllGo fromRow col v rows

/-- Embedding of the loop of `Table.All` (scd.go): decode every row in
order; the first decode failure aborts the whole call. -/
def allGo {Rec : Type} (fromRow : Row → Except String Rec) :
    List Row → Except DbError (List Rec)
  | [] => .ok []
  | r :: rest =>
    match fromRow r with
    | .error e => .error (.codec e)
    | .ok rec =>
      match allGo fromRow rest with
      | .error e => .error e
      | .ok recs => .ok (rec :: recs)

/-- `Table.All` (scd.go). -/
def All {Rec : Type} (fromRow : Row → Except String Rec) (rows : List Row) :
    Except DbError (List Rec) :=
  allGo fromRow rows

/-- `Table.Insert` (scd.go): encode the record (a failure returns before
the rows are touched), then append. -/
def Insert {Rec : Type} (toRow : Rec → Except String Row) (rec : Rec) (rows : List Row) :
    List Row × Option DbError :=
  match toRow rec with
  | .error e => (rows, some (.codec e))
  | .ok row => (rows ++ [row], none)

/-- The encode loop of `Table.InsertAll` (scd.go): encode the records in
order, stopping at the first failure, before anything is appended. -/
def encodeAll {Rec : Type} (toRow : Rec → Except String Row) :
    List Rec → Except String (List Row)
  | [] => .ok []
  | rec :: recs =>
    match toRow rec with
    | .error e => .error e
    | .ok row =>
      match encodeAll toRow recs with
      | .error e => .error e
      | .ok rows => .ok (row :: rows)

/-- `Table.InsertAll` (scd.go): encode all records first; only if every
encode succeeded are the rows appended (one batch). -/
def InsertAll {Rec : Type} (toRow : Rec → Except String Row) (recs : List Rec)
    (rows : List Row) : List Row × Option DbError :=
  match encodeAll toRow recs with
  | .error e => (rows, some (.codec e))
  | .ok newRows => (rows ++ newRows, none)

/-- Embedding of the scan loop of `Table.Update` (scd.go): the first row
whose field `col` equals `id` is overwritten in place (`t.rows[i] = row`)
and the loop returns; a short row aborts with `FindOutOfIndex` leaving
the rows as they are; falling off the end yields `ValueNotFound`. -/
def updateGo (col : Nat) (id : String) (row : Row) :
    List Row → List Row × Option DbError
  | [] => ([], some .valueNotFound)
  | r :: rest =>
    if r.length ≤ col then (r :: rest, some .findOutOfIndex)
    else if r.getD col "" = id then (row :: rest, none)
    else
      match updateGo col id row rest with
      | (rest', e) => (r :: rest', e)

/-- `Table.Update` (scd.go): encode first (a failure returns before the
rows are touched), then scan-and-replace. -/
def Update {Rec : Type} (toRow : Rec → Except String Row) (col : Nat) (id : String)
    (rec : Rec) (rows : List Row) : List Row × Option DbError :=
  match toRow rec with
  | .error e => (rows, some (.codec e))
  | .ok row => updateGo col id row rows

/-- Embedding of the scan loop of `Table.UpdateAll` (scd.go): every row
whose field `col` equals `v` is overwritten with `row`, the `updated`
flag accumulating whether any match happened; a short row aborts with
`FindOutOfIndex`, keeping the replacements already made. -/
def updateAllGo (col : Nat) (v : String) (row : Row) :
    List Row → Bool → List Row × Bool × Option DbError
  | [], updated => ([], updated, none)
  | r :: rest, updated =>
    if r.length ≤ col then (r :: rest, updated, some .findOutOfIndex)
    else if r.getD col "" = v then
      match updateAllGo col v row rest true with
      | (rest', u, e) => (row :: rest', u, e)
    else
      match updateAllGo col v row rest updated with
      | (rest', u, e) => (r :: rest', u, e)

/-- `Table.UpdateAll` (scd.go): encode first, scan replacing every
match, and report `ValueNotFound` when the scan finished with no
match. -/
def UpdateAll {Rec : Type} (toRow : Rec → Except String Row) (col : Nat) (v : String)
    (rec : Rec) (rows : List Row) : List Row × Option DbError :=
  match toRow rec with
  | .error e => (rows, some (.codec e))
  | .ok row =>
    match updateAllGo col v row rows false with
    | (rows', _, some e) => (rows', some e)
    | (rows', true, none) => (rows', none)
    | (rows', false, none) => (rows', some .valueNotFound)

/-- Embedding of the scan loop of `Table.Delete` (scd.go), scanning from
index `i` upward: the first row whose field `col` equals `id` is
replaced by the last row (`t.rows[i] = t.rows[len(t.rows)-1]`) and the
last slot is truncated (`t.rows = t.rows[:len(t.rows)-1]`). -/
def deleteFrom (col : Nat) (id : String) (rows : List Row) (i : Nat) :
    List Row × Option DbError :=
  if h : i < rows.length then
    if (rows.getD i []).length ≤ col then (rows, some .findOutOfIndex)
    else if (rows.getD i []).getD col "" = id then
      ((rows.set i (rows.getLastD [])).dropLast, none)
    else deleteFrom col id rows (i + 1)
  else (rows, some .valueNotFound)
termination_by rows.length - i

/-- `Table.Delete` (scd.go). -/
def Delete (col : Nat) (id : String) (rows : List Row) : List Row × Option DbError :=
  deleteFrom col id rows 0

/-- Embedding of the loop of `Table.DeleteAll` (scd.go), which runs
`for i := len(t.rows)-1; i >= 0; i--`: `fuel` is `i + 1`, so `fuel = 0`
means the loop is done.  A match at index `i` performs the same
swap-with-last truncation as `Delete`; a short row aborts with
`FindOutOfIndex`, keeping the deletions already made. -/
def deleteAllFrom (col : Nat) (v : String) :
    Nat → List Row → Bool → List Row × Bool × Option DbError
  | 0, rows, deleted => (rows, deleted, none)
  | i + 1, rows, deleted =>
    if (rows.getD i []).length ≤ col then (rows, deleted, some .findOutOfIndex)
    else if (rows.getD i []).getD col "" = v then
      deleteAllFrom col v i ((rows.set i (rows.getLastD [])).dropLast) true
    else deleteAllFrom col v i rows deleted

/-- `Table.DeleteAll` (scd.go): run the backward scan over all indices
and report `ValueNotFound` when no row was deleted. -/
def DeleteAll (col : Nat) (v : String) (rows : List Row) : List Row × Option DbError :=
  match deleteAllFrom col v rows.length rows false with
  | (rows', _, some e) => (rows', some e)
  | (rows', true, none) => (rows', none)
  | (rows', false, none) => (rows', some .valueNotFound)

/-- Reformulation of the backward loop of `Table.DeleteAll` used in the
proofs: `todoRev` is the not-yet-scanned prefix `rows[0..i]` in reverse
order (its head is the row at the current index `i`), `done` is the
already-scanned suffix `rows[i+1..]` of the current rows.  A match when
`done` is nonempty moves the current last row — the last row of `done` —
into the slot being vacated, which as seen from `done` is a rotation of
its last element to its front.  `deleteAllFrom_eq_rev` proves this equal
to `deleteAllFrom`. -/
def deleteAllRev (col : Nat) (v : String) :
    List Row → List Row → Bool → List Row × Bool × Option DbError
  | [], done, deleted => (done, deleted, none)
  | r :: rest, done, deleted =>
    if r.length ≤ col then ((r :: rest).reverse ++ done, deleted, some .findOutOfIndex)
    else if r.getD col "" = v then
      match done with
      | [] => deleteAllRev col v rest [] true
      | d :: ds => deleteAllRev col v rest ((d :: ds).getLastD [] :: (d :: ds).dropLast) true
    else deleteAllRev col v rest (r :: done) deleted

/-! ### Bounds-checked embedding of the scans, with Go's `int` column

In Go the column index has type `int` and may be negative.  Every scan
guards only `col >= len(rows[i])` before evaluating `rows[i][col]`, so
the guard bounds `col` from above only; a negative `col` reaching the
index expression panics.  To reason about index safety we re-embed each
scan with `col : Int` and a checked field access `getAt` that returns
`none` exactly when the access `r[col]` would be out of bounds (a Go
runtime panic).  A scan result of `none` therefore means "this call
performs an out-of-range access".  The user codec plays no part in any
`[col]` access, so these instrumented scans work on raw rows. -/

/-- Checked embedding of the Go index expression `r[col]` for
`col : int`: in bounds means `0 ≤ col < len(r)`. -/
def getAt (r : Row) (col : Int) : Option String :=
  if 0 ≤ col ∧ col < (r.length : Int) then some (r.getD col.toNat "") else none

/-- Checked `Table.Select` scan (codec omitted: it never indexes by
`col`). -/
def selectI (col : Int) (id : String) : List Row → Option (Except DbError (Option Row))
  | [] => some (.ok none)
  | r :: rest =>
    if (r.length : Int) ≤ col then some (.error .findOutOfIndex)
    else
      match getAt r col with
      | none => none
      | some s => if s = id then some (.ok (some r)) else selectI col id rest

/-- Checked `Table.SelectAll` scan. -/
def selectAllI (col : Int) (v : String) : List Row → Option (Except DbError (List Row))
  | [] => some (.ok [])
  | r :: rest =>
    if (r.length : Int) ≤ col then some (.error .findOutOfIndex)
    else
      match getAt r col with
      | none => none
      | some s =>
        if s = v then
          match selectAllI col v rest with
          | none => none
          | some (.error e) => some (.error e)
          | some (.ok recs) => some (.ok (r :: recs))
        else selectAllI col v rest

/-- Checked `Table.Update` scan (the replacement row is already
encoded). -/
def updateI (col : Int) (id : String) (row : Row) :
    List Row → Option (List Row × Option DbError)
  | [] => some ([], some .valueNotFound)
  | r :: rest =>
    if (r.length : Int) ≤ col then some (r :: rest, some .findOutOfIndex)
    else
      match getAt r col with
      | none => none
      | some s =>
        if s = id then some (row :: rest, none)
        else
          match updateI col id row rest with
          | none => none
          | some (rest', e) => some (r :: rest', e)

/-- Checked `Table.UpdateAll` scan. -/
def updateAllI (col : Int) (v : String) (row : Row) :
    List Row → Bool → Option (List Row × Bool × Option DbError)
  | [], updated => some ([], updated, none)
  | r :: rest, updated =>
    if (r.length : Int) ≤ col then some (r :: rest, updated, some .findOutOfIndex)
    else
      match getAt r col with
      | none => none
      | some s =>
        if s = v then
          match updateAllI col v row rest true with
          | none => none
          | some (rest', u, e) => some (row :: rest', u, e)
        else
          match updateAllI col v row rest updated with
          | none => none
          | some (rest', u, e) => some (r :: rest', u, e)

/-- Checked `Table.Delete` scan. -/
def deleteFromI (col : Int) (id : String) (rows : List Row) (i : Nat) :
    Option (List Row × Option DbError) :=
  if h : i < rows.length then
    if ((rows.getD i []).length : Int) ≤ col then some (rows, some .findOutOfIndex)
    else
      match getAt (rows.getD i []) col with
      | none => none
      | some s =>
        if s = id then some ((rows.set i (rows.getLastD [])).dropLast, none)
        else deleteFromI col id rows (i + 1)
  else some (rows, some .valueNotFound)
termination_by rows.length - i

/-- Checked `Table.DeleteAll` scan (`fuel = i + 1` as in
`deleteAllFrom`). -/
def deleteAllFromI (col : Int) (v : String) :
    Nat → List Row → Bool → Option (List Row × Bool × Option DbError)
  | 0, rows, deleted => some (rows, deleted, none)
  | i + 1, rows, deleted =>
    if ((rows.getD i []).length : Int) ≤ col then some (rows, deleted, some .findOutOfIndex)
    else
      match getAt (rows.getD i []) col with
      | none => none
      | some s =>
        if s = v then
          deleteAllFromI col v i ((rows.set i (rows.getLastD [])).dropLast) true
        else deleteAllFromI col v i rows deleted

/-! ### The change-notification channel and the table state

`OpenTable` creates `changed := make(chan struct{}, 1)`: a buffered
channel of capacity one.  Every mutating operation, on success, runs

    select { case t.changed <- struct{}{}: default: }

a non-blocking send that enqueues a notification when the buffer is
empty and drops it otherwise.  We model the channel contents as the
number of queued notifications and this send as `notifySend`; the
worker's receive in `ListenChange` removes one queued notification. -/

/-- The non-blocking send on the capacity-1 `changed` channel: enqueue
when there is room, drop otherwise (the `default` branch). -/
def notifySend (pending : Nat) : Nat :=
  if pending < 1 then pending + 1 else pending

/-- A table: the rows plus the number of notifications queued in the
`changed` channel. -/
structure TableState where
  rows : List Row
  pending : Nat
deriving DecidableEq, Repr

/-- `Table.Insert` acting on the table state: on success the rows are
appended to and the notification is sent; an encode failure returns
before rows or channel are touched. -/
def insertOp {Rec : Type} (toRow : Rec → Except String Row) (rec : Rec)
    (t : TableState) : TableState × Option DbError :=
  match Insert toRow rec t.rows with
  | (rows, none) => (⟨rows, notifySend t.pending⟩, none)
  | (rows, some e) => (⟨rows, t.pending⟩, some e)

/-- `Table.InsertAll` acting on the table state. -/
def insertAllOp {Rec : Type} (toRow : Rec → Except String Row) (recs : List Rec)
    (t : TableState) : TableState × Option DbError :=
  match InsertAll toRow recs t.rows with
  | (rows, none) => (⟨rows, notifySend t.pending⟩, none)
  | (rows, some e) => (⟨rows, t.pending⟩, some e)

/-- `Table.Update` acting on the table state: the notification is sent
exactly on the success path. -/
def updateOp {Rec : Type} (toRow : Rec → Except String Row) (col : Nat) (id : String)
    (rec : Rec) (t : TableState) : TableState × Option DbError :=
  match Update toRow col id rec t.rows with
  | (rows, none) => (⟨rows, notifySend t.pending⟩, none)
  | (rows, some e) => (⟨rows, t.pending⟩, some e)

/-- `Table.UpdateAll` acting on the table state. -/
def updateAllOp {Rec : Type} (toRow : Rec → Except String Row) (col : Nat) (v : String)
    (rec : Rec) (t : TableState) : TableState × Option DbError :=
  match UpdateAll toRow col v rec t.rows with
  | (rows, none) => (⟨rows, notifySend t.pending⟩, none)
  | (rows, some e) => (⟨rows, t.pending⟩, some e)

/-- `Table.Delete` acting on the table state. -/
def deleteOp (col : Nat) (id : String) (t : TableState) : TableState × Option DbError :=
  match Delete col id t.rows with
  | (rows, none) => (⟨rows, notifySend t.pending⟩, none)
  | (rows, some e) => (⟨rows, t.pending⟩, some e)

/-- `Table.DeleteAll` acting on the table state. -/
def deleteAllOp (col : Nat) (v : String) (t : TableState) : TableState × Option DbError :=
  match DeleteAll col v t.rows with
  | (rows, none) => (⟨rows, notifySend t.pending⟩, none)
  | (rows, some e) => (⟨rows, t.pending⟩, some e)

/-- `Table.Select` acting on the table state: reads neither set the
flag nor touch the channel. -/
def selectOp {Rec : Type} (fromRow : Row → Except String Rec) (col : Nat) (id : String)
    (t : TableState) : TableState × Except DbError (Option Rec) :=
  (t, Select fromRow col id t.rows)

/-- `Table.SelectAll` acting on the table state. -/
def selectAllOp {Rec : Type} (fromRow : Row → Except String Rec) (col : Nat) (v : String)
    (t : TableState) : TableState × Except DbError (List Rec) :=
  (t, SelectAll fromRow col v t.rows)

/-- `Table.All` acting on the table state. -/
def allOp {Rec : Type} (fromRow : Row → Except String Rec) (t : TableState) :
    TableState × Except DbError (List Rec) :=
  (t, All fromRow t.rows)

/-- Table states reachable from `OpenTable` (which creates the channel
empty) by any sequence of table operations and worker receives. -/
inductive Reach {Rec : Type} (toRow : Rec → Except String Row) : TableState → Prop where
  | openTable (rows : List Row) : Reach toRow ⟨rows, 0⟩
  | insertStep {t : TableState} (rec : Rec) :
      Reach toRow t → Reach toRow (insertOp toRow rec t).1
  | insertAllStep {t : TableState} (recs : List Rec) :
      Reach toRow t → Reach toRow (insertAllOp toRow recs t).1
  | updateStep {t : TableState} (col : Nat) (id : String) (rec : Rec) :
      Reach toRow t → Reach toRow (updateOp toRow col id rec t).1
  | updateAllStep {t : TableState} (col : Nat) (v : String) (rec : Rec) :
      Reach toRow t → Reach toRow (updateAllOp toRow col v rec t).1
  | deleteStep {t : TableState} (col : Nat) (id : String) :
      Reach toRow t → Reach toRow (deleteOp col id t).1
  | deleteAllStep {t : TableState} (col : Nat) (v : String) :
      Reach toRow t → Reach toRow (deleteAllOp col v t).1
  | consumeStep {t : TableState} :
      Reach toRow t → 0 < t.pending → Reach toRow ⟨t.rows, t.pending - 1⟩

/-! ### The shutdown handshake

`Table.Close` is `close(t.close)`: it closes the `close` channel —
an operation that can never block — and returns at once.  The worker
in `ListenChange` later observes the closed channel in its `select`
and only then runs `t.file.Close()` (whose error is returned from
`ListenChange` to *its* caller).  We model the interleaving of the
`Close` caller and the worker goroutine as a transition system. -/

/-- Global state of the shutdown protocol: whether `t.close` has been
closed, whether the `Close()` call has returned to its caller, and
whether the worker has executed `t.file.Close()`. -/
structure ShutdownState where
  closeChanClosed : Bool
  closeReturned : Bool
  fileClosed : Bool
deriving DecidableEq, Repr

/-- Interleaved steps of the `Close` caller and the worker goroutine,
as written in scd.go: `callClose` is the whole body of `Table.Close`
(`close(t.close)` cannot block, so the call returns in the same step);
`workerClose` is the worker's `case <-t.close: return t.file.Close()`
branch, enabled once the channel is closed. -/
inductive ShutdownStep : ShutdownState → ShutdownState → Prop where
  | callClose (s : ShutdownState) : s.closeChanClosed = false →
      ShutdownStep s ⟨true, true, s.fileClosed⟩
  | workerClose (s : ShutdownState) : s.closeChanClosed = true → s.fileClosed = false →
      ShutdownStep s ⟨s.closeChanClosed, s.closeReturned, true⟩

/-- Shutdown-protocol states reachable from the open table (channel
open, `Close` not yet called, file open). -/
inductive ShutdownReachable : ShutdownState → Prop where
  | start : ShutdownReachable ⟨false, false, false⟩
  | step {s s' : ShutdownState} :
      ShutdownReachable s → ShutdownStep s s' → ShutdownReachable s'

/-! ### Concrete codecs used to instantiate the generic theorems -/

/-- The identity record type: a record is its row, both conversions
always succeed. -/
def okCodec : Row → Except String Row := fun r => .ok r

/-- A decoder that rejects every row. -/
def badCodec : Row → Except String Row := fun _ => .error "bad"

end Scd


namespace Scd

/-! ### List helpers for reasoning about the scans -/

theorem getD_append_cons {α : Type} (pre : List α) (r : α) (rest : List α) (d : α) :
    (pre ++ r :: rest).getD pre.length d = r := by
  induction pre with
  | nil => rfl
  | cons q pre ih => simpa [List.getD_cons_succ] using ih

theorem set_append_cons {α : Type} (pre : List α) (r x : α) (rest : List α) :
    (pre ++ r :: rest).set pre.length x = pre ++ x :: rest := by
  induction pre with
  | nil => rfl
  | cons q pre ih => simp [List.set_cons_succ, ih]

/-! ### Claim C10: behaviour on the empty table -/

/-- C10: on an empty table, for every column index (however large) and
every value, `Select` returns not-found, `SelectAll` returns the empty
sequence, and `Update`, `UpdateAll`, `Delete`, `DeleteAll` return
`ValueNotFound` (given a record that encodes); `FindOutOfIndex` is never
reported, so an out-of-range column goes undetected while no row
exists. -/
theorem claim10_empty_table {Rec : Type} (fromRow : Row → Except String Rec)
    (toRow : Rec → Except String Row) (col : Nat) (id v : String) (rec : Rec) (row : Row)
    (henc : toRow rec = .ok row) :
    Select fromRow col id [] = .ok none ∧
    SelectAll fromRow col v [] = .ok [] ∧
    Update toRow col id rec [] = ([], some .valueNotFound) ∧
    UpdateAll toRow col v rec [] = ([], some .valueNotFound) ∧
    Delete col id [] = ([], some .valueNotFound) ∧
    DeleteAll col v [] = ([], some .valueNotFound) := by
  refine ⟨rfl, rfl, ?_, ?_, ?_, rfl⟩
  · simp [Update, henc, updateGo]
  · simp [UpdateAll, henc, updateAllGo]
  · simp [Delete, deleteFrom]

/-- Witness for C10 at a concrete column 5 on the empty table. -/
theorem claim10_empty_table_witness :
    Select okCodec 5 "x" [] = .ok none ∧
    SelectAll okCodec 5 "y" [] = .ok [] ∧
    Update okCodec 5 "x" ["a"] [] = ([], some .valueNotFound) ∧
    UpdateAll okCodec 5 "y" ["a"] [] = ([], some .valueNotFound) ∧
    Delete 5 "x" [] = ([], some .valueNotFound) ∧
    DeleteAll 5 "y" [] = ([], some .valueNotFound) :=
  claim10_empty_table okCodec okCodec 5 "x" "y" ["a"] ["a"] rfl

/-! ### Claim C4: `All` -/

/-- C4 counterexample: `All` is not failure-free — with a decoder that
rejects a row (the user's `FromRow` is fallible by design), `All`
returns an error, contradicting "never fails". -/
theorem claim4_counterexample : All badCodec [[]] = .error (.codec "bad") := rfl

/-- C4 (amended): `All` returns the decoded records of every row in
insertion order when every row decodes; when some row fails to decode
while all rows before it decode, `All` propagates that first decode
failure instead of returning partial results. -/
theorem claim4_all_ordered {Rec : Type} (fromRow : Row → Except String Rec)
    (rows : List Row) :
    (∀ g : Row → Rec, (∀ r ∈ rows, fromRow r = .ok (g r)) →
      All fromRow rows = .ok (rows.map g)) ∧
    (∀ (pre : List Row) (r : Row) (post : List Row) (e : String),
      rows = pre ++ r :: post → (∀ q ∈ pre, ∃ x, fromRow q = .ok x) →
      fromRow r = .error e → All fromRow rows = .error (.codec e)) := by
  constructor
  · intro g hg
    show allGo fromRow rows = .ok (rows.map g)
    induction rows with
    | nil => rfl
    | cons r rest ih =>
      have hr := hg r (List.mem_cons_self r rest)
      have hrest := ih fun q hq => hg q (List.mem_cons_of_mem r hq)
      simp only [allGo, hr, hrest, List.map_cons]
  · intro pre r post e hrows hpre hr
    subst hrows
    show allGo fromRow (pre ++ r :: post) = .error (.codec e)
    induction pre with
    | nil => simp only [List.nil_append, allGo, hr]
    | cons q pre ih =>
      obtain ⟨x, hx⟩ := hpre q (List.mem_cons_self q pre)
      have hrec := ih fun p hp => hpre p (List.mem_cons_of_mem q hp)
      simp only [List.cons_append, allGo, hx, List.append_eq, hrec]

/-- Witness for C4 (amended): a two-row table with the identity codec
decodes in insertion order. -/
theorem claim4_witness : All okCodec [["a"], ["b"]] = .ok [["a"], ["b"]] := by
  have h := (claim4_all_ordered okCodec [["a"], ["b"]]).1 (fun r => r) (fun r _ => rfl)
  simpa using h

/-! ### Claim C8: `UpdateAll` -/

/-- Characterization of the `UpdateAll` scan when every row is long
enough for `col`: every match is overwritten with `row` in place, the
flag records whether any match existed, and no error occurs. -/
theorem updateAllGo_spec (col : Nat) (v : String) (row : Row) :
    ∀ (rows : List Row) (u : Bool), (∀ r ∈ rows, col < r.length) →
      updateAllGo col v row rows u =
        (rows.map fun r => if r.getD col "" = v then row else r,
         u || rows.any fun r => decide (r.getD col "" = v), none) := by
  intro rows
  induction rows with
  | nil => intro u _; simp only [updateAllGo, List.map_nil, List.any_nil, Bool.or_false]
  | cons r rest ih =>
    intro u h
    have hr : col < r.length := h r (List.mem_cons_self r rest)
    have hrest := fun q hq => h q (List.mem_cons_of_mem r hq)
    by_cases hm : r.getD col "" = v
    · simp only [updateAllGo, if_neg (Nat.not_le.mpr hr), if_pos hm, ih true hrest,
        List.map_cons, List.any_cons, decide_eq_true hm, Bool.true_or, Bool.or_true]
    · simp only [updateAllGo, if_neg (Nat.not_le.mpr hr), if_neg hm, ih u hrest,
        List.map_cons, List.any_cons, decide_eq_false hm, Bool.false_or]

/-- C8: when every row of the table has more than `col` fields,
`updateAll(col, v, rec)` replaces every row whose field `col` equals `v`
with the one encoded replacement row, leaves all non-matching rows
unchanged in place, succeeds exactly when some row matched, and fails
with `ValueNotFound` exactly when none did. -/
theorem claim8_updateAll {Rec : Type} (toRow : Rec → Except String Row) (col : Nat)
    (v : String) (rec : Rec) (row : Row) (rows : List Row)
    (henc : toRow rec = .ok row) (hlen : ∀ r ∈ rows, col < r.length) :
    (UpdateAll toRow col v rec rows).1 =
      (rows.map fun r => if r.getD col "" = v then row else r) ∧
    ((UpdateAll toRow col v rec rows).2 = none ↔ ∃ r ∈ rows, r.getD col "" = v) ∧
    ((UpdateAll toRow col v rec rows).2 = some .valueNotFound ↔
      ¬ ∃ r ∈ rows, r.getD col "" = v) := by
  have hspec := updateAllGo_spec col v row rows false hlen
  cases hany : rows.any fun r => decide (r.getD col "" = v) with
  | true =>
    have hex : ∃ r ∈ rows, r.getD col "" = v := by
      simpa using List.any_eq_true.mp hany
    have hres : UpdateAll toRow col v rec rows
        = (rows.map fun r => if r.getD col "" = v then row else r, none) := by
      simp only [UpdateAll, henc, hspec, Bool.false_or, hany]
    rw [hres]
    exact ⟨rfl, ⟨fun _ => hex, fun _ => rfl⟩,
      ⟨fun hcontra => absurd hcontra (by simp), fun hn => absurd hex hn⟩⟩
  | false =>
    have hex : ¬ ∃ r ∈ rows, r.getD col "" = v := by
      intro hcontra
      obtain ⟨r, hr, hm⟩ := hcontra
      have : rows.any (fun r => decide (r.getD col "" = v)) = true :=
        List.any_eq_true.mpr ⟨r, hr, by simpa using hm⟩
      rw [hany] at this
      exact Bool.false_ne_true this
    have hres : UpdateAll toRow col v rec rows
        = (rows.map fun r => if r.getD col "" = v then row else r,
           some .valueNotFound) := by
      simp only [UpdateAll, henc, hspec, Bool.false_or, hany]
    rw [hres]
    exact ⟨rfl, ⟨fun hcontra => absurd hcontra (by simp), fun hr => absurd hr hex⟩,
      ⟨fun _ => hex, fun _ => rfl⟩⟩

/-- Witness for C8 on a three-row table with two matches. -/
theorem claim8_witness :
    (UpdateAll okCodec 0 "a" ["z"] [["a"], ["b"], ["a"]]).1 = [["z"], ["b"], ["z"]] ∧
    (UpdateAll okCodec 0 "a" ["z"] [["a"], ["b"], ["a"]]).2 = none := by
  have h := claim8_updateAll okCodec 0 "a" ["z"] ["z"] [["a"], ["b"], ["a"]] rfl (by decide)
  exact ⟨by rw [h.1]; decide, h.2.1.mpr ⟨["a"], by decide, rfl⟩⟩

/-! ### Claim C1: table state after a failed mutation -/

/-- The `Update` scan leaves the rows unchanged when it returns an
error. -/
theorem updateGo_err (col : Nat) (id : String) (row : Row) :
    ∀ rows : List Row, (updateGo col id row rows).2 ≠ none →
      (updateGo col id row rows).1 = rows := by
  intro rows
  induction rows with
  | nil => intro _; rfl
  | cons r rest ih =>
    intro hne
    by_cases hs : r.length ≤ col
    · rw [show updateGo col id row (r :: rest) = (r :: rest, some .findOutOfIndex) from by
        simp only [updateGo, if_pos hs]]
    · by_cases hm : r.getD col "" = id
      · rw [show updateGo col id row (r :: rest) = (row :: rest, none) from by
          simp only [updateGo, if_neg hs, if_pos hm]] at hne
        exact absurd rfl hne
      · rcases hrec : updateGo col id row rest with ⟨rest', e⟩
        rw [show updateGo col id row (r :: rest) = (r :: rest', e) from by
          simp only [updateGo, if_neg hs, if_neg hm, hrec]] at hne ⊢
        have h2 : (updateGo col id row rest).2 ≠ none := by rw [hrec]; exact hne
        have h1 := ih h2
        rw [hrec] at h1
        exact congrArg (List.cons r) h1

/-- Once the `UpdateAll` scan has seen a match, its flag stays `true`. -/
theorem updateAllGo_flag_mono (col : Nat) (v : String) (row : Row) :
    ∀ rows : List Row, (updateAllGo col v row rows true).2.1 = true := by
  intro rows
  induction rows with
  | nil => rfl
  | cons r rest ih =>
    by_cases hs : r.length ≤ col
    · rw [show updateAllGo col v row (r :: rest) true
          = (r :: rest, true, some .findOutOfIndex) from by
        simp only [updateAllGo, if_pos hs]]
    · by_cases hm : r.getD col "" = v
      · rcases hrec : updateAllGo col v row rest true with ⟨rest', u, e⟩
        rw [show updateAllGo col v row (r :: rest) true = (row :: rest', u, e) from by
          simp only [updateAllGo, if_neg hs, if_pos hm, hrec]]
        rw [hrec] at ih
        exact ih
      · rcases hrec : updateAllGo col v row rest true with ⟨rest', u, e⟩
        rw [show updateAllGo col v row (r :: rest) true = (r :: rest', u, e) from by
          simp only [updateAllGo, if_neg hs, if_neg hm, hrec]]
        rw [hrec] at ih
        exact ih

/-- If the `UpdateAll` scan finishes with its flag still `false`, no row
was replaced. -/
theorem updateAllGo_no_match_id (col : Nat) (v : String) (row : Row) :
    ∀ rows : List Row, (updateAllGo col v row rows false).2.1 = false →
      (updateAllGo col v row rows false).1 = rows := by
  intro rows
  induction rows with
  | nil => intro _; rfl
  | cons r rest ih =>
    intro hflag
    by_cases hs : r.length ≤ col
    · rw [show updateAllGo col v row (r :: rest) false
          = (r :: rest, false, some .findOutOfIndex) from by
        simp only [updateAllGo, if_pos hs]]
    · by_cases hm : r.getD col "" = v
      · rcases hrec : updateAllGo col v row rest true with ⟨rest', u, e⟩
        rw [show updateAllGo col v row (r :: rest) false = (row :: rest', u, e) from by
          simp only [updateAllGo, if_neg hs, if_pos hm, hrec]] at hflag
        have hmono := updateAllGo_flag_mono col v row rest
        rw [hrec] at hmono
        rw [show ((row :: rest', u, e) : List Row × Bool × Option DbError).2.1 = u from rfl]
          at hflag
        rw [show ((rest', u, e) : List Row × Bool × Option DbError).2.1 = u from rfl] at hmono
        rw [hmono] at hflag
        exact absurd hflag (by simp)
      · rcases hrec : updateAllGo col v row rest false with ⟨rest', u, e⟩
        rw [show updateAllGo col v row (r :: rest) false = (r :: rest', u, e) from by
          simp only [updateAllGo, if_neg hs, if_neg hm, hrec]] at hflag ⊢
        have h1 := ih (by rw [hrec]; exact hflag)
        rw [hrec] at h1
        exact congrArg (List.cons r) h1

/-- Once the `DeleteAll` scan has deleted something, its flag stays
`true`. -/
theorem deleteAllFrom_flag_mono (col : Nat) (v : String) :
    ∀ (fuel : Nat) (rows : List Row), (deleteAllFrom col v fuel rows true).2.1 = true := by
  intro fuel
  induction fuel with
  | zero => intro rows; rfl
  | succ i ih =>
    intro rows
    by_cases hs : (rows.getD i []).length ≤ col
    · rw [show deleteAllFrom col v (i + 1) rows true
          = (rows, true, some .findOutOfIndex) from by
        simp only [deleteAllFrom, if_pos hs]]
    · by_cases hm : (rows.getD i []).getD col "" = v
      · rw [show deleteAllFrom col v (i + 1) rows true
            = deleteAllFrom col v i ((rows.set i (rows.getLastD [])).dropLast) true from by
          simp only [deleteAllFrom, if_neg hs, if_pos hm]]
        exact ih _
      · rw [show deleteAllFrom col v (i + 1) rows true
            = deleteAllFrom col v i rows true from by
          simp only [deleteAllFrom, if_neg hs, if_neg hm]]
        exact ih rows

/-- If the `DeleteAll` scan finishes with its flag still `false`, no row
was removed. -/
theorem deleteAllFrom_no_match_id (col : Nat) (v : String) :
    ∀ (fuel : Nat) (rows : List Row), (deleteAllFrom col v fuel rows false).2.1 = false →
      (deleteAllFrom col v fuel rows false).1 = rows := by
  intro fuel
  induction fuel with
  | zero => intro rows _; rfl
  | succ i ih =>
    intro rows hflag
    by_cases hs : (rows.getD i []).length ≤ col
    · rw [show deleteAllFrom col v (i + 1) rows false
          = (rows, false, some .findOutOfIndex) from by
        simp only [deleteAllFrom, if_pos hs]]
    · by_cases hm : (rows.getD i []).getD col "" = v
      · rw [show deleteAllFrom col v (i + 1) rows false
            = deleteAllFrom col v i ((rows.set i (rows.getLastD [])).dropLast) true from by
          simp only [deleteAllFrom, if_neg hs, if_pos hm]] at hflag
        rw [deleteAllFrom_flag_mono col v i] at hflag
        exact absurd hflag (by simp)
      · rw [show deleteAllFrom col v (i + 1) rows false
            = deleteAllFrom col v i rows false from by
          simp only [deleteAllFrom, if_neg hs, if_neg hm]] at hflag ⊢
        exact ih rows hflag

/-- The `Delete` scan leaves the rows unchanged when it returns an
error. -/
theorem deleteFrom_err (col : Nat) (id : String) (rows : List Row) :
    ∀ i : Nat, (deleteFrom col id rows i).2 ≠ none → (deleteFrom col id rows i).1 = rows := by
  refine deleteFrom.induct col id rows
    (fun i => (deleteFrom col id rows i).2 ≠ none → (deleteFrom col id rows i).1 = rows)
    ?_ ?_ ?_ ?_
  · intro x hx hshort _
    rw [show deleteFrom col id rows x = (rows, some .findOutOfIndex) from by
      rw [deleteFrom.eq_def]; simp only [dif_pos hx, if_pos hshort]]
  · intro x hx hlong hmatch hne
    rw [show deleteFrom col id rows x = ((rows.set x (rows.getLastD [])).dropLast, none) from by
      rw [deleteFrom.eq_def]; simp only [dif_pos hx, if_neg hlong, if_pos hmatch]] at hne
    exact absurd rfl hne
  · intro x hx hlong hnomatch ih hne
    rw [show deleteFrom col id rows x = deleteFrom col id rows (x + 1) from by
      rw [deleteFrom.eq_def]; simp only [dif_pos hx, if_neg hlong, if_neg hnomatch]] at hne ⊢
    exact ih hne
  · intro x hx _
    rw [show deleteFrom col id rows x = (rows, some .valueNotFound) from by
      rw [deleteFrom.eq_def]; simp only [dif_neg hx]]

/-- The only error the `UpdateAll` scan itself can produce is
`FindOutOfIndex`. -/
theorem updateAllGo_err_oob (col : Nat) (v : String) (row : Row) :
    ∀ (rows : List Row) (u : Bool) (e : DbError),
      (updateAllGo col v row rows u).2.2 = some e → e = .findOutOfIndex := by
  intro rows
  induction rows with
  | nil =>
    intro u e he
    rw [show updateAllGo col v row [] u = ([], u, none) from rfl] at he
    exact absurd he (by simp)
  | cons r rest ih =>
    intro u e he
    by_cases hs : r.length ≤ col
    · rw [show updateAllGo col v row (r :: rest) u
          = (r :: rest, u, some .findOutOfIndex) from by
        simp only [updateAllGo, if_pos hs]] at he
      simpa using he.symm
    · by_cases hm : r.getD col "" = v
      · rcases hrec : updateAllGo col v row rest true with ⟨rest', uu, ee⟩
        rw [show updateAllGo col v row (r :: rest) u = (row :: rest', uu, ee) from by
          simp only [updateAllGo, if_neg hs, if_pos hm, hrec]] at he
        exact ih true e (by rw [hrec]; exact he)
      · rcases hrec : updateAllGo col v row rest u with ⟨rest', uu, ee⟩
        rw [show updateAllGo col v row (r :: rest) u = (r :: rest', uu, ee) from by
          simp only [updateAllGo, if_neg hs, if_neg hm, hrec]] at he
        exact ih u e (by rw [hrec]; exact he)

/-- The only error the `DeleteAll` scan itself can produce is
`FindOutOfIndex`. -/
theorem deleteAllFrom_err_oob (col : Nat) (v : String) :
    ∀ (fuel : Nat) (rows : List Row) (b : Bool) (e : DbError),
      (deleteAllFrom col v fuel rows b).2.2 = some e → e = .findOutOfIndex := by
  intro fuel
  induction fuel with
  | zero =>
    intro rows b e he
    rw [show deleteAllFrom col v 0 rows b = (rows, b, none) from rfl] at he
    exact absurd he (by simp)
  | succ i ih =>
    intro rows b e he
    by_cases hs : (rows.getD i []).length ≤ col
    · rw [show deleteAllFrom col v (i + 1) rows b
          = (rows, b, some .findOutOfIndex) from by
        simp only [deleteAllFrom, if_pos hs]] at he
      simpa using he.symm
    · by_cases hm : (rows.getD i []).getD col "" = v
      · rw [show deleteAllFrom col v (i + 1) rows b
            = deleteAllFrom col v i ((rows.set i (rows.getLastD [])).dropLast) true from by
          simp only [deleteAllFrom, if_neg hs, if_pos hm]] at he
        exact ih _ true e he
      · rw [show deleteAllFrom col v (i + 1) rows b
            = deleteAllFrom col v i rows b from by
          simp only [deleteAllFrom, if_neg hs, if_neg hm]] at he
        exact ih rows b e he

/-- C1 (amended): a failed `insert`, `insertAll`, `update`, or `delete`
leaves the table exactly as it was, and so do `updateAll` and
`deleteAll` failing with `ValueNotFound` or an encode failure; only
`updateAll`/`deleteAll` aborting mid-scan with `FindOutOfIndex` can
leave already-replaced or already-removed rows behind. -/
theorem claim1_error_state {Rec : Type} (toRow : Rec → Except String Row) (col : Nat)
    (id v : String) :
    (∀ (rec : Rec) (rows : List Row),
      (Insert toRow rec rows).2 ≠ none → (Insert toRow rec rows).1 = rows) ∧
    (∀ (recs : List Rec) (rows : List Row),
      (InsertAll toRow recs rows).2 ≠ none → (InsertAll toRow recs rows).1 = rows) ∧
    (∀ (rec : Rec) (rows : List Row),
      (Update toRow col id rec rows).2 ≠ none → (Update toRow col id rec rows).1 = rows) ∧
    (∀ rows : List Row, (Delete col id rows).2 ≠ none → (Delete col id rows).1 = rows) ∧
    (∀ (rec : Rec) (rows : List Row) (e : DbError),
      (UpdateAll toRow col v rec rows).2 = some e → e ≠ .findOutOfIndex →
      (UpdateAll toRow col v rec rows).1 = rows) ∧
    (∀ (rows : List Row) (e : DbError),
      (DeleteAll col v rows).2 = some e → e ≠ .findOutOfIndex →
      (DeleteAll col v rows).1 = rows) := by
  refine ⟨?_, ?_, ?_, ?_, ?_, ?_⟩
  · intro rec rows hne
    cases henc : toRow rec with
    | error e => simp only [Insert, henc]
    | ok row =>
      rw [show Insert toRow rec rows = (rows ++ [row], none) from by
        simp only [Insert, henc]] at hne
      exact absurd rfl hne
  · intro recs rows hne
    cases henc : encodeAll toRow recs with
    | error e => simp only [InsertAll, henc]
    | ok newRows =>
      rw [show InsertAll toRow recs rows = (rows ++ newRows, none) from by
        simp only [InsertAll, henc]] at hne
      exact absurd rfl hne
  · intro rec rows hne
    cases henc : toRow rec with
    | error e => simp only [Update, henc]
    | ok row =>
      rw [show Update toRow col id rec rows = updateGo col id row rows from by
        simp only [Update, henc]] at hne ⊢
      exact updateGo_err col id row rows hne
  · exact fun rows => deleteFrom_err col id rows 0
  · intro rec rows e h2 hnoob
    cases henc : toRow rec with
    | error msg => simp only [UpdateAll, henc]
    | ok row =>
      rcases hrun : updateAllGo col v row rows false with ⟨rows', u, err⟩
      cases err with
      | some e2 =>
        exfalso
        apply hnoob
        rw [show UpdateAll toRow col v rec rows = (rows', some e2) from by
          simp only [UpdateAll, henc, hrun]] at h2
        have he2 : e2 = e := by simpa using h2
        rw [← he2]
        exact updateAllGo_err_oob col v row rows false e2 (by rw [hrun])
      | none =>
        cases u with
        | true =>
          rw [show UpdateAll toRow col v rec rows = (rows', none) from by
            simp only [UpdateAll, henc, hrun]] at h2
          exact absurd h2 (by simp)
        | false =>
          have hun := updateAllGo_no_match_id col v row rows (by rw [hrun])
          rw [hrun] at hun
          rw [show UpdateAll toRow col v rec rows = (rows', some .valueNotFound) from by
            simp only [UpdateAll, henc, hrun]]
          exact hun
  · intro rows e h2 hnoob
    rcases hrun : deleteAllFrom col v rows.length rows false with ⟨rows', u, err⟩
    cases err with
    | some e2 =>
      exfalso
      apply hnoob
      rw [show DeleteAll col v rows = (rows', some e2) from by
        simp only [DeleteAll, hrun]] at h2
      have he2 : e2 = e := by simpa using h2
      rw [← he2]
      exact deleteAllFrom_err_oob col v rows.length rows false e2 (by rw [hrun])
    | none =>
      cases u with
      | true =>
        rw [show DeleteAll col v rows = (rows', none) from by
          simp only [DeleteAll, hrun]] at h2
        exact absurd h2 (by simp)
      | false =>
        have hun := deleteAllFrom_no_match_id col v rows.length rows (by rw [hrun])
        rw [hrun] at hun
        rw [show DeleteAll col v rows = (rows', some .valueNotFound) from by
          simp only [DeleteAll, hrun]]
        exact hun

/-- C1 counterexample: `UpdateAll` hitting a short row mid-scan returns
`FindOutOfIndex` but has already replaced the matching first row, so the
starting rows `[["a"], []]` are not restored — a partial mutation
remains. -/
theorem claim1_counterexample :
    (UpdateAll okCodec 0 "a" ["x"] [["a"], []]).2 = some .findOutOfIndex ∧
    (UpdateAll okCodec 0 "a" ["x"] [["a"], []]).1 ≠ [["a"], []] :=
  ⟨rfl, by decide⟩

/-- Witness for C1 (amended) at concrete failing calls of `Update` and
`DeleteAll`. -/
theorem claim1_witness :
    (Update okCodec 0 "a" ["x"] [[]]).1 = [[]] ∧
    (DeleteAll 0 "a" [["b"]]).1 = [["b"]] := by
  have h := claim1_error_state okCodec 0 "a" "a"
  exact ⟨h.2.2.1 ["x"] [[]] (by decide),
    h.2.2.2.2.2 [["b"]] .valueNotFound rfl (by decide)⟩

/-! ### Claim C3: `DeleteAll` -/

theorem getLastD_append_cons {α : Type} (l : List α) (r : α) (m : List α) (d : α) :
    (l ++ r :: m).getLastD d = (r :: m).getLastD d := by
  rw [List.getLastD_eq_getLast?, List.getLastD_eq_getLast?, List.getLast?_append_cons]

theorem getLastD_ne_nil {α : Type} (l : List α) (hne : l ≠ []) (d₁ d₂ : α) :
    l.getLastD d₁ = l.getLastD d₂ := by
  rw [List.getLastD_eq_getLast?, List.getLastD_eq_getLast?, List.getLast?_eq_getLast l hne]
  rfl

/-- Rotating the last element of a nonempty list to the front is a
permutation. -/
theorem getLastD_cons_dropLast_perm {α : Type} (d : α) (ds : List α) (x : α) :
    List.Perm ((d :: ds).getLastD x :: (d :: ds).dropLast) (d :: ds) := by
  have hne : d :: ds ≠ [] := List.cons_ne_nil d ds
  have h1 : (d :: ds).getLastD x = (d :: ds).getLast hne := by
    rw [List.getLastD_eq_getLast?, List.getLast?_eq_getLast _ hne]
    rfl
  rw [h1]
  have h2 := List.dropLast_append_getLast hne
  refine ((List.perm_append_singleton _ _).symm).trans ?_
  rw [h2]

/-- The fuel-indexed backward scan equals its structural reverse-list
reformulation. -/
theorem deleteAllFrom_eq_rev (col : Nat) (v : String) :
    ∀ (todoRev done : List Row) (deleted : Bool),
      deleteAllFrom col v todoRev.length (todoRev.reverse ++ done) deleted
        = deleteAllRev col v todoRev done deleted := by
  intro todoRev
  induction todoRev with
  | nil => intro done deleted; rfl
  | cons r rest ih =>
    intro done deleted
    have hrows : (r :: rest).reverse ++ done = rest.reverse ++ (r :: done) := by
      rw [List.reverse_cons, List.append_assoc]
      rfl
    have hget : (rest.reverse ++ r :: done).getD rest.length [] = r := by
      have h := getD_append_cons rest.reverse r done ([] : Row)
      rwa [List.length_reverse] at h
    rw [List.length_cons, hrows]
    by_cases hs : r.length ≤ col
    · rw [show deleteAllFrom col v (rest.length + 1) (rest.reverse ++ r :: done) deleted
          = (rest.reverse ++ r :: done, deleted, some .findOutOfIndex) from by
        simp only [deleteAllFrom, hget, if_pos hs]]
      rw [show deleteAllRev col v (r :: rest) done deleted
          = ((r :: rest).reverse ++ done, deleted, some .findOutOfIndex) from by
        simp only [deleteAllRev, if_pos hs]]
      rw [hrows]
    · by_cases hm : r.getD col "" = v
      · cases done with
        | nil =>
          have hlast : (rest.reverse ++ [r]).getLastD [] = r := by
            rw [getLastD_append_cons]
            rfl
          have hset : (rest.reverse ++ [r]).set rest.length r = rest.reverse ++ [r] := by
            have h := set_append_cons rest.reverse r r []
            rwa [List.length_reverse] at h
          rw [show deleteAllFrom col v (rest.length + 1) (rest.reverse ++ [r]) deleted
              = deleteAllFrom col v rest.length rest.reverse true from by
            simp only [deleteAllFrom, hget, if_neg hs, if_pos hm, hlast, hset,
              List.dropLast_concat]]
          rw [show deleteAllRev col v (r :: rest) [] deleted
              = deleteAllRev col v rest [] true from by
            simp only [deleteAllRev, if_neg hs, if_pos hm]]
          have h := ih [] true
          rwa [List.append_nil] at h
        | cons d ds =>
          have hlast : (rest.reverse ++ r :: d :: ds).getLastD [] = (d :: ds).getLastD [] := by
            rw [getLastD_append_cons, List.getLastD_cons]
            exact getLastD_ne_nil (d :: ds) (List.cons_ne_nil d ds) r []
          have hset : (rest.reverse ++ r :: d :: ds).set rest.length ((d :: ds).getLastD [])
              = rest.reverse ++ (d :: ds).getLastD [] :: d :: ds := by
            have h := set_append_cons rest.reverse r ((d :: ds).getLastD []) (d :: ds)
            rwa [List.length_reverse] at h
          rw [show deleteAllFrom col v (rest.length + 1) (rest.reverse ++ r :: d :: ds) deleted
              = deleteAllFrom col v rest.length
                  (rest.reverse ++ ((d :: ds).getLastD [] :: (d :: ds).dropLast)) true from by
            simp only [deleteAllFrom, hget, if_neg hs, if_pos hm, hlast, hset,
              List.dropLast_append_cons, List.dropLast_cons₂]]
          rw [show deleteAllRev col v (r :: rest) (d :: ds) deleted
              = deleteAllRev col v rest ((d :: ds).getLastD [] :: (d :: ds).dropLast) true from by
            simp only [deleteAllRev, if_neg hs, if_pos hm]]
          exact ih _ true
      · rw [show deleteAllFrom col v (rest.length + 1) (rest.reverse ++ r :: done) deleted
            = deleteAllFrom col v rest.length (rest.reverse ++ (r :: done)) deleted from by
          simp only [deleteAllFrom, hget, if_neg hs, if_neg hm]]
        rw [show deleteAllRev col v (r :: rest) done deleted
            = deleteAllRev col v rest (r :: done) deleted from by
          simp only [deleteAllRev, if_neg hs, if_neg hm]]
        exact ih (r :: done) deleted

/-- Multiset characterization of the reverse-list reformulation: the
rows that survive are exactly the non-matching scanned rows plus the
already-scanned suffix, the flag records whether any match was seen,
and no error occurs while all rows are long enough. -/
theorem deleteAllRev_spec (col : Nat) (v : String) :
    ∀ (todoRev done : List Row) (deleted : Bool), (∀ r ∈ todoRev, col < r.length) →
      List.Perm (deleteAllRev col v todoRev done deleted).1
          (todoRev.filter (fun r => decide (r.getD col "" ≠ v)) ++ done) ∧
      (deleteAllRev col v todoRev done deleted).2.1
        = (deleted || todoRev.any fun r => decide (r.getD col "" = v)) ∧
      (deleteAllRev col v todoRev done deleted).2.2 = none := by
  intro todoRev
  induction todoRev with
  | nil =>
    intro done deleted _
    rw [show deleteAllRev col v [] done deleted = (done, deleted, none) from rfl]
    exact ⟨by simp, by simp, rfl⟩
  | cons r rest ih =>
    intro done deleted h
    have hr : col < r.length := h r (List.mem_cons_self r rest)
    have hrest : ∀ q ∈ rest, col < q.length := fun q hq => h q (List.mem_cons_of_mem r hq)
    have hs : ¬ r.length ≤ col := Nat.not_le.mpr hr
    by_cases hm : r.getD col "" = v
    · have hfilter : (r :: rest).filter (fun q => decide (q.getD col "" ≠ v))
          = rest.filter (fun q => decide (q.getD col "" ≠ v)) :=
        List.filter_cons_of_neg (by simpa using hm)
      have hany : ((r :: rest).any fun q => decide (q.getD col "" = v)) = true := by
        rw [List.any_cons, decide_eq_true hm, Bool.true_or]
      cases done with
      | nil =>
        rw [show deleteAllRev col v (r :: rest) [] deleted
            = deleteAllRev col v rest [] true from by
          simp only [deleteAllRev, if_neg hs, if_pos hm]]
        obtain ⟨p1, p2, p3⟩ := ih [] true hrest
        refine ⟨by rw [hfilter]; exact p1, ?_, p3⟩
        rw [p2, hany, Bool.true_or, Bool.or_true]
      | cons d ds =>
        rw [show deleteAllRev col v (r :: rest) (d :: ds) deleted
            = deleteAllRev col v rest ((d :: ds).getLastD [] :: (d :: ds).dropLast) true from by
          simp only [deleteAllRev, if_neg hs, if_pos hm]]
        obtain ⟨p1, p2, p3⟩ := ih ((d :: ds).getLastD [] :: (d :: ds).dropLast) true hrest
        refine ⟨?_, ?_, p3⟩
        · rw [hfilter]
          exact p1.trans (List.Perm.append_left _ (getLastD_cons_dropLast_perm d ds []))
        · rw [p2, hany, Bool.true_or, Bool.or_true]
    · have hfilter : (r :: rest).filter (fun q => decide (q.getD col "" ≠ v))
          = r :: rest.filter (fun q => decide (q.getD col "" ≠ v)) :=
        List.filter_cons_of_pos (by simpa using hm)
      rw [show deleteAllRev col v (r :: rest) done deleted
          = deleteAllRev col v rest (r :: done) deleted from by
        simp only [deleteAllRev, if_neg hs, if_neg hm]]
      obtain ⟨p1, p2, p3⟩ := ih (r :: done) deleted hrest
      refine ⟨?_, ?_, p3⟩
      · rw [hfilter, List.cons_append]
        exact p1.trans List.perm_middle
      · rw [p2, List.any_cons, decide_eq_false hm, Bool.false_or]

/-- C3: when every row of the table has more than `col` fields,
`deleteAll(col, v)` removes exactly the rows whose field `col` equals
`v` — including those relocated by the swap-with-last compaction — and
keeps every non-matching row (as a multiset); it succeeds exactly when
some row matched and fails with `ValueNotFound` exactly when none
did. -/
theorem claim3_deleteAll (col : Nat) (v : String) (rows : List Row)
    (hlen : ∀ r ∈ rows, col < r.length) :
    List.Perm (DeleteAll col v rows).1
      (rows.filter fun r => decide (r.getD col "" ≠ v)) ∧
    ((DeleteAll col v rows).2 = none ↔ ∃ r ∈ rows, r.getD col "" = v) ∧
    ((DeleteAll col v rows).2 = some .valueNotFound ↔
      ¬ ∃ r ∈ rows, r.getD col "" = v) := by
  have hb := deleteAllFrom_eq_rev col v rows.reverse [] false
  rw [List.length_reverse, List.reverse_reverse, List.append_nil] at hb
  have hrev : ∀ q ∈ rows.reverse, col < q.length :=
    fun q hq => hlen q (List.mem_reverse.mp hq)
  obtain ⟨p1, p2, p3⟩ := deleteAllRev_spec col v rows.reverse [] false hrev
  rw [← hb] at p1 p2 p3
  rw [List.append_nil, List.filter_reverse] at p1
  rw [Bool.false_or, List.any_reverse] at p2
  rcases hrun : deleteAllFrom col v rows.length rows false with ⟨rows', u, err⟩
  rw [hrun] at p1 p2 p3
  have herr : err = none := p3
  subst herr
  have hperm : List.Perm rows' (rows.filter fun r => decide (r.getD col "" ≠ v)) :=
    p1.trans (List.reverse_perm _)
  have hu : u = rows.any fun r => decide (r.getD col "" = v) := p2
  cases hval : rows.any fun r => decide (r.getD col "" = v) with
  | true =>
    have hex : ∃ r ∈ rows, r.getD col "" = v := by
      simpa using List.any_eq_true.mp hval
    rw [hval] at hu
    subst hu
    rw [show DeleteAll col v rows = (rows', none) from by
      simp only [DeleteAll, hrun]]
    exact ⟨hperm, ⟨fun _ => hex, fun _ => rfl⟩,
      ⟨fun hcontra => absurd hcontra (by simp), fun hn => absurd hex hn⟩⟩
  | false =>
    have hex : ¬ ∃ r ∈ rows, r.getD col "" = v := by
      intro hcontra
      obtain ⟨r, hrr, hmm⟩ := hcontra
      have : (rows.any fun r => decide (r.getD col "" = v)) = true :=
        List.any_eq_true.mpr ⟨r, hrr, by simpa using hmm⟩
      rw [hval] at this
      exact Bool.false_ne_true this
    rw [hval] at hu
    subst hu
    rw [show DeleteAll col v rows = (rows', some .valueNotFound) from by
      simp only [DeleteAll, hrun]]
    exact ⟨hperm, ⟨fun hcontra => absurd hcontra (by simp), fun hyes => absurd hyes hex⟩,
      ⟨fun _ => hex, fun _ => rfl⟩⟩

/-- Witness for C3 on a three-row table with two matches, one of which
is relocated by the swap-with-last compaction. -/
theorem claim3_witness :
    List.Perm (DeleteAll 0 "a" [["a"], ["b"], ["a"]]).1
      ([["a"], ["b"], ["a"]].filter fun r => decide (r.getD 0 "" ≠ "a")) ∧
    (DeleteAll 0 "a" [["a"], ["b"], ["a"]]).2 = none := by
  have h := claim3_deleteAll 0 "a" [["a"], ["b"], ["a"]] (by decide)
  exact ⟨h.1, h.2.1.mpr ⟨["a"], by decide, rfl⟩⟩

/-! ### Claim C6: `Delete` -/

/-- The `Delete` scan on a table whose first match is `r`, preceded by
`pre` (all long enough and non-matching) and already-scanned `front`:
the matching slot receives the table's last row and the last slot is
truncated; nothing else moves. -/
theorem deleteFrom_first_match (col : Nat) (id : String) (r : Row) (post : List Row)
    (hrlen : col < r.length) (hrm : r.getD col "" = id) :
    ∀ pre front : List Row, (∀ q ∈ pre, col < q.length ∧ q.getD col "" ≠ id) →
      deleteFrom col id (front ++ (pre ++ r :: post)) front.length
        = (((front ++ pre) ++ ((front ++ (pre ++ r :: post)).getLastD []) :: post).dropLast,
           none) := by
  intro pre
  induction pre with
  | nil =>
    intro front _
    simp only [List.nil_append, List.append_nil]
    have hi : front.length < (front ++ r :: post).length := by
      simp [List.length_append]
    have hg : (front ++ r :: post).getD front.length [] = r := getD_append_cons front r post []
    rw [deleteFrom.eq_def]
    simp only [dif_pos hi, hg, if_neg (Nat.not_le.mpr hrlen), if_pos hrm]
    rw [set_append_cons front r _ post]
  | cons q pre ih =>
    intro front hq
    obtain ⟨hqlen, hqm⟩ := hq q (List.mem_cons_self q pre)
    have hpre' := fun p hp => hq p (List.mem_cons_of_mem q hp)
    rw [show (q :: pre) ++ r :: post = q :: (pre ++ r :: post) from rfl]
    have hi : front.length < (front ++ q :: (pre ++ r :: post)).length := by
      simp [List.length_append]
    have hg : (front ++ q :: (pre ++ r :: post)).getD front.length [] = q :=
      getD_append_cons front q _ []
    rw [deleteFrom.eq_def]
    simp only [dif_pos hi, hg, if_neg (Nat.not_le.mpr hqlen), if_neg hqm]
    have hfr : front.length + 1 = (front ++ [q]).length := by simp
    have hrw : front ++ q :: (pre ++ r :: post) = (front ++ [q]) ++ (pre ++ r :: post) := by
      simp
    rw [hfr, hrw, ih (front ++ [q]) hpre']
    simp [List.append_assoc]

/-- C6: when the first row matching `row[col] == id` is `r` — with every
earlier row long enough and non-matching, and `r` itself long enough —
`delete(col, id)` succeeds, moving the formerly-last row into the
matched slot, truncating the last slot, and leaving every other row in
place; when the match is the last row, the result is simply the table
without its last row. -/
theorem claim6_delete (col : Nat) (id : String) (pre : List Row) (r : Row) (post : List Row)
    (hpre : ∀ q ∈ pre, col < q.length ∧ q.getD col "" ≠ id)
    (hrlen : col < r.length) (hrm : r.getD col "" = id) :
    Delete col id (pre ++ r :: post)
      = ((pre ++ ((pre ++ r :: post).getLastD []) :: post).dropLast, none) ∧
    (post = [] → (Delete col id (pre ++ r :: post)).1 = (pre ++ r :: post).dropLast) := by
  have h := deleteFrom_first_match col id r post hrlen hrm pre [] hpre
  simp only [List.nil_append] at h
  have h0 : Delete col id (pre ++ r :: post)
      = ((pre ++ ((pre ++ r :: post).getLastD []) :: post).dropLast, none) := h
  refine ⟨h0, ?_⟩
  intro hpost
  subst hpost
  rw [h0]
  rw [show pre ++ ((pre ++ r :: []).getLastD []) :: [] = pre ++ [(pre ++ [r]).getLastD []] from
    rfl]
  rw [List.dropLast_concat, show pre ++ r :: [] = pre ++ [r] from rfl, List.dropLast_concat]

/-- Witness for C6: deleting the first row swaps the last row into its
slot. -/
theorem claim6_witness :
    Delete 1 "x" [["a", "x"], ["b", "y"], ["c", "z"]] = ([["c", "z"], ["b", "y"]], none) := by
  have h := claim6_delete 1 "x" [] ["a", "x"] [["b", "y"], ["c", "z"]]
    (fun q hq => absurd hq (by simp)) (by decide) rfl
  rw [List.nil_append] at h
  rw [h.1]
  decide

/-! ### Claim C7: `Select` -/

/-- `Select` returns the decoded first match when everything before it
is long enough and non-matching. -/
theorem selectGo_first_match {Rec : Type} (fromRow : Row → Except String Rec) (col : Nat)
    (id : String) (r : Row) (post : List Row) (rec : Rec)
    (hrm : r.getD col "" = id) (hrlen : col < r.length) (hdec : fromRow r = .ok rec) :
    ∀ pre : List Row, (∀ q ∈ pre, col < q.length ∧ q.getD col "" ≠ id) →
      selectGo fromRow col id (pre ++ r :: post) = .ok (some rec) := by
  intro pre
  induction pre with
  | nil =>
    intro _
    rw [show ([] : List Row) ++ r :: post = r :: post from rfl]
    simp only [selectGo, if_neg (Nat.not_le.mpr hrlen), if_pos hrm, hdec]
  | cons q pre ih =>
    intro hq
    obtain ⟨hqlen, hqm⟩ := hq q (List.mem_cons_self q pre)
    rw [show (q :: pre) ++ r :: post = q :: (pre ++ r :: post) from rfl]
    simp only [selectGo, if_neg (Nat.not_le.mpr hqlen), if_neg hqm]
    exact ih fun p hp => hq p (List.mem_cons_of_mem q hp)

/-- `Select` returns Go's `(nil, nil)` — not-found without error — when
every row is long enough and none matches. -/
theorem selectGo_none {Rec : Type} (fromRow : Row → Except String Rec) (col : Nat)
    (id : String) :
    ∀ rows : List Row, (∀ q ∈ rows, col < q.length ∧ q.getD col "" ≠ id) →
      selectGo fromRow col id rows = .ok none := by
  intro rows
  induction rows with
  | nil => intro _; rfl
  | cons r rest ih =>
    intro h
    obtain ⟨hrlen, hrm⟩ := h r (List.mem_cons_self r rest)
    simp only [selectGo, if_neg (Nat.not_le.mpr hrlen), if_neg hrm]
    exact ih fun q hq => h q (List.mem_cons_of_mem r hq)

/-- `Select` reports `FindOutOfIndex` exactly when a row shorter than
`col + 1` is scanned before any match. -/
theorem selectGo_oob_iff {Rec : Type} (fromRow : Row → Except String Rec) (col : Nat)
    (id : String) :
    ∀ rows : List Row,
      (selectGo fromRow col id rows = .error .findOutOfIndex ↔
        ∃ (pre : List Row) (r : Row) (post : List Row), rows = pre ++ r :: post ∧
          r.length ≤ col ∧ ∀ q ∈ pre, col < q.length ∧ q.getD col "" ≠ id) := by
  intro rows
  induction rows with
  | nil =>
    constructor
    · intro h
      exact absurd h (by simp [selectGo])
    · intro h
      obtain ⟨pre, r, post, heq, _, _⟩ := h
      cases pre <;> simp at heq
  | cons w rest ih =>
    by_cases hs : w.length ≤ col
    · refine iff_of_true ?_ ⟨[], w, rest, rfl, hs, fun q hq => absurd hq (by simp)⟩
      simp only [selectGo, if_pos hs]
    · by_cases hm : w.getD col "" = id
      · refine iff_of_false ?_ ?_
        · cases hfr : fromRow w with
          | error e =>
            simp only [selectGo, if_neg hs, if_pos hm, hfr]
            intro h
            exact DbError.noConfusion (Except.error.inj h)
          | ok rec =>
            simp only [selectGo, if_neg hs, if_pos hm, hfr]
            intro h
            exact Except.noConfusion h
        · intro h
          obtain ⟨pre, r, post, heq, hshort, hpre⟩ := h
          cases pre with
          | nil =>
            have : w = r := by simpa using congrArg (fun l => l.headI) heq
            rw [← this] at hshort
            exact hs hshort
          | cons q pre =>
            have hq : w = q ∧ rest = pre ++ r :: post := by
              constructor
              · simpa using congrArg (fun l => l.headI) heq
              · simpa using congrArg List.tail heq
            have := (hpre q (List.mem_cons_self q pre)).2
            rw [← hq.1] at this
            exact this hm
      · rw [show selectGo fromRow col id (w :: rest) = selectGo fromRow col id rest from by
          simp only [selectGo, if_neg hs, if_neg hm]]
        rw [ih]
        constructor
        · intro h
          obtain ⟨pre, r, post, heq, hshort, hpre⟩ := h
          refine ⟨w :: pre, r, post, by rw [heq]; rfl, hshort, ?_⟩
          intro q hq
          rcases List.mem_cons.mp hq with hq1 | hq2
          · subst hq1
            exact ⟨Nat.not_le.mp hs, hm⟩
          · exact hpre q hq2
        · intro h
          obtain ⟨pre, r, post, heq, hshort, hpre⟩ := h
          cases pre with
          | nil =>
            have : w = r := by simpa using congrArg (fun l => l.headI) heq
            rw [← this] at hshort
            exact absurd hshort hs
          | cons q pre =>
            have hq : w = q ∧ rest = pre ++ r :: post := by
              constructor
              · simpa using congrArg (fun l => l.headI) heq
              · simpa using congrArg List.tail heq
            exact ⟨pre, r, post, hq.2, hshort,
              fun p hp => hpre p (List.mem_cons_of_mem q hp)⟩

/-- C7: `select(col, id)` returns the decoded first matching row; it
returns not-found (distinct from an error) when every row is long
enough and none matches; and it fails with `FindOutOfIndex` exactly
when a row with fewer than `col + 1` fields is scanned before any
match. -/
theorem claim7_select {Rec : Type} (fromRow : Row → Except String Rec) (col : Nat)
    (id : String) (rows : List Row) :
    (∀ (pre : List Row) (r : Row) (post : List Row) (rec : Rec),
      rows = pre ++ r :: post → (∀ q ∈ pre, col < q.length ∧ q.getD col "" ≠ id) →
      col < r.length → r.getD col "" = id → fromRow r = .ok rec →
      Select fromRow col id rows = .ok (some rec)) ∧
    ((∀ q ∈ rows, col < q.length ∧ q.getD col "" ≠ id) →
      Select fromRow col id rows = .ok none) ∧
    (Select fromRow col id rows = .error .findOutOfIndex ↔
      ∃ (pre : List Row) (r : Row) (post : List Row), rows = pre ++ r :: post ∧
        r.length ≤ col ∧ ∀ q ∈ pre, col < q.length ∧ q.getD col "" ≠ id) := by
  refine ⟨?_, selectGo_none fromRow col id rows, selectGo_oob_iff fromRow col id rows⟩
  intro pre r post rec heq hpre hrlen hrm hdec
  rw [heq]
  exact selectGo_first_match fromRow col id r post rec hrm hrlen hdec pre hpre

/-- Witness for C7: the first of two matching rows is returned,
decoded. -/
theorem claim7_witness :
    Select okCodec 0 "a" [["b"], ["a", "1"], ["a", "2"]] = .ok (some ["a", "1"]) :=
  (claim7_select okCodec 0 "a" [["b"], ["a", "1"], ["a", "2"]]).1
    [["b"]] ["a", "1"] [["a", "2"]] ["a", "1"] rfl (by decide) (by decide) rfl rfl

/-! ### Claim C9: index safety of the scans -/

/-- With `0 ≤ col`, the short-row guard run before each access keeps
every `r[col]` of the `Select` scan in bounds. -/
theorem selectI_safe (col : Int) (hcol : 0 ≤ col) (id : String) :
    ∀ rows : List Row, selectI col id rows ≠ none := by
  intro rows
  induction rows with
  | nil => simp [selectI]
  | cons r rest ih =>
    by_cases hs : (r.length : Int) ≤ col
    · simp [selectI, hs]
    · have hg : getAt r col = some (r.getD col.toNat "") := by
        simp only [getAt, if_pos (And.intro hcol (not_le.mp hs))]
      rw [show selectI col id (r :: rest)
          = (if r.getD col.toNat "" = id then some (.ok (some r)) else selectI col id rest)
          from by simp only [selectI, if_neg hs, hg]]
      by_cases hsid : r.getD col.toNat "" = id
      · rw [if_pos hsid]
        simp
      · rw [if_neg hsid]
        exact ih

/-- Index safety of the `SelectAll` scan. -/
theorem selectAllI_safe (col : Int) (hcol : 0 ≤ col) (v : String) :
    ∀ rows : List Row, selectAllI col v rows ≠ none := by
  intro rows
  induction rows with
  | nil => simp [selectAllI]
  | cons r rest ih =>
    by_cases hs : (r.length : Int) ≤ col
    · simp [selectAllI, hs]
    · have hg : getAt r col = some (r.getD col.toNat "") := by
        simp only [getAt, if_pos (And.intro hcol (not_le.mp hs))]
      rw [show selectAllI col v (r :: rest)
          = (if r.getD col.toNat "" = v then
              match selectAllI col v rest with
              | none => none
              | some (.error e) => some (.error e)
              | some (.ok recs) => some (.ok (r :: recs))
            else selectAllI col v rest)
          from by simp only [selectAllI, if_neg hs, hg]]
      by_cases hsid : r.getD col.toNat "" = v
      · rw [if_pos hsid]
        rcases hrec : selectAllI col v rest with _ | res
        · exact absurd hrec ih
        · rcases res with e | recs <;> simp
      · rw [if_neg hsid]
        exact ih

/-- Index safety of the `Update` scan. -/
theorem updateI_safe (col : Int) (hcol : 0 ≤ col) (id : String) (row : Row) :
    ∀ rows : List Row, updateI col id row rows ≠ none := by
  intro rows
  induction rows with
  | nil => simp [updateI]
  | cons r rest ih =>
    by_cases hs : (r.length : Int) ≤ col
    · simp [updateI, hs]
    · have hg : getAt r col = some (r.getD col.toNat "") := by
        simp only [getAt, if_pos (And.intro hcol (not_le.mp hs))]
      rw [show updateI col id row (r :: rest)
          = (if r.getD col.toNat "" = id then some (row :: rest, none)
            else
              match updateI col id row rest with
              | none => none
              | some (rest', e) => some (r :: rest', e))
          from by simp only [updateI, if_neg hs, hg]]
      by_cases hsid : r.getD col.toNat "" = id
      · rw [if_pos hsid]
        simp
      · rw [if_neg hsid]
        rcases hrec : updateI col id row rest with _ | res
        · exact absurd hrec ih
        · rcases res with ⟨rest', e⟩
          simp

/-- Index safety of the `UpdateAll` scan. -/
theorem updateAllI_safe (col : Int) (hcol : 0 ≤ col) (v : String) (row : Row) :
    ∀ (rows : List Row) (u : Bool), updateAllI col v row rows u ≠ none := by
  intro rows
  induction rows with
  | nil => intro u; simp [updateAllI]
  | cons r rest ih =>
    intro u
    by_cases hs : (r.length : Int) ≤ col
    · simp [updateAllI, hs]
    · have hg : getAt r col = some (r.getD col.toNat "") := by
        simp only [getAt, if_pos (And.intro hcol (not_le.mp hs))]
      rw [show updateAllI col v row (r :: rest) u
          = (if r.getD col.toNat "" = v then
              match updateAllI col v row rest true with
              | none => none
              | some (rest', uu, e) => some (row :: rest', uu, e)
            else
              match updateAllI col v row rest u with
              | none => none
              | some (rest', uu, e) => some (r :: rest', uu, e))
          from by simp only [updateAllI, if_neg hs, hg]]
      by_cases hsid : r.getD col.toNat "" = v
      · rw [if_pos hsid]
        rcases hrec : updateAllI col v row rest true with _ | res
        · exact absurd hrec (ih true)
        · rcases res with ⟨rest', uu, e⟩
          simp
      · rw [if_neg hsid]
        rcases hrec : updateAllI col v row rest u with _ | res
        · exact absurd hrec (ih u)
        · rcases res with ⟨rest', uu, e⟩
          simp

/-- Index safety of the `Delete` scan. -/
theorem deleteFromI_safe (col : Int) (hcol : 0 ≤ col) (id : String) (rows : List Row) :
    ∀ i : Nat, deleteFromI col id rows i ≠ none := by
  refine deleteFromI.induct col id rows (fun i => deleteFromI col id rows i ≠ none)
    ?_ ?_ ?_ ?_ ?_
  · intro x hx hshort
    rw [deleteFromI.eq_def]
    simp only [dif_pos hx, if_pos hshort]
    simp
  · intro x hx hlong hnone
    have hg : getAt (rows.getD x []) col = some ((rows.getD x []).getD col.toNat "") := by
      simp only [getAt, if_pos (And.intro hcol (not_le.mp hlong))]
    rw [hg] at hnone
    exact absurd hnone (by simp)
  · intro x hx hlong hgid
    rw [deleteFromI.eq_def]
    simp only [dif_pos hx, if_neg hlong, hgid, if_pos rfl]
    simp
  · intro x hx hlong s hgs hsid ih
    rw [deleteFromI.eq_def]
    simp only [dif_pos hx, if_neg hlong, hgs, if_neg hsid]
    exact ih
  · intro x hx
    rw [deleteFromI.eq_def]
    simp only [dif_neg hx]
    simp

/-- Index safety of the `DeleteAll` scan. -/
theorem deleteAllFromI_safe (col : Int) (hcol : 0 ≤ col) (v : String) :
    ∀ (fuel : Nat) (rows : List Row) (b : Bool), deleteAllFromI col v fuel rows b ≠ none := by
  intro fuel
  induction fuel with
  | zero => intro rows b; simp [deleteAllFromI]
  | succ i ih =>
    intro rows b
    by_cases hs : ((rows.getD i []).length : Int) ≤ col
    · rw [show deleteAllFromI col v (i + 1) rows b
          = some (rows, b, some .findOutOfIndex) from by
        simp only [deleteAllFromI, if_pos hs]]
      simp
    · have hg : getAt (rows.getD i []) col = some ((rows.getD i []).getD col.toNat "") := by
        simp only [getAt, if_pos (And.intro hcol (not_le.mp hs))]
      rw [show deleteAllFromI col v (i + 1) rows b
          = (if (rows.getD i []).getD col.toNat "" = v then
              deleteAllFromI col v i ((rows.set i (rows.getLastD [])).dropLast) true
            else deleteAllFromI col v i rows b)
          from by simp only [deleteAllFromI, if_neg hs, hg]]
      by_cases hsid : (rows.getD i []).getD col.toNat "" = v
      · rw [if_pos hsid]
        exact ih _ true
      · rw [if_neg hsid]
        exact ih rows b

/-- C9: for every scan with `col ≥ 0`, the access `rows[i][col]` is in
bounds whenever it is performed, because the guard `col >= len(rows[i])`
aborts the scan first; and the precondition `col ≥ 0` is genuinely
required — the guard bounds `col` only from above, and a negative column
reaches an out-of-range access (the `none` result) on any nonempty
row. -/
theorem claim9_scan_access_safety :
    (∀ col : Int, 0 ≤ col → ∀ (id : String) (row : Row) (rows : List Row) (u : Bool)
        (i fuel : Nat) (b : Bool),
      selectI col id rows ≠ none ∧
      selectAllI col id rows ≠ none ∧
      updateI col id row rows ≠ none ∧
      updateAllI col id row rows u ≠ none ∧
      deleteFromI col id rows i ≠ none ∧
      deleteAllFromI col id fuel rows b ≠ none) ∧
    selectI (-1) "x" [["a"]] = none := by
  refine ⟨?_, rfl⟩
  intro col hcol id row rows u i fuel b
  exact ⟨selectI_safe col hcol id rows, selectAllI_safe col hcol id rows,
    updateI_safe col hcol id row rows, updateAllI_safe col hcol id row rows u,
    deleteFromI_safe col hcol id rows i, deleteAllFromI_safe col hcol id fuel rows b⟩

/-- Witness for C9 at column 0 on a one-row table. -/
theorem claim9_witness :
    selectI 0 "a" [["a"]] ≠ none ∧ deleteAllFromI 0 "a" 1 [["a"]] false ≠ none :=
  ⟨(claim9_scan_access_safety.1 0 (by decide) "a" [] [["a"]] false 0 1 false).1,
   (claim9_scan_access_safety.1 0 (by decide) "a" [] [["a"]] false 0 1 false).2.2.2.2.2⟩

/-! ### Claim C5: the change-notification channel -/

theorem notifySend_le_one (p : Nat) (h : p ≤ 1) : notifySend p ≤ 1 := by
  unfold notifySend
  split <;> omega

theorem insertOp_pending {Rec : Type} (toRow : Rec → Except String Row) (rec : Rec)
    (t : TableState) :
    (insertOp toRow rec t).1.pending = t.pending ∨
    (insertOp toRow rec t).1.pending = notifySend t.pending := by
  rcases h : Insert toRow rec t.rows with ⟨rows, e⟩
  cases e with
  | none =>
    rw [show insertOp toRow rec t = (⟨rows, notifySend t.pending⟩, none) from by
      simp only [insertOp, h]]
    exact Or.inr rfl
  | some e =>
    rw [show insertOp toRow rec t = (⟨rows, t.pending⟩, some e) from by
      simp only [insertOp, h]]
    exact Or.inl rfl

theorem insertAllOp_pending {Rec : Type} (toRow : Rec → Except String Row) (recs : List Rec)
    (t : TableState) :
    (insertAllOp toRow recs t).1.pending = t.pending ∨
    (insertAllOp toRow recs t).1.pending = notifySend t.pending := by
  rcases h : InsertAll toRow recs t.rows with ⟨rows, e⟩
  cases e with
  | none =>
    rw [show insertAllOp toRow recs t = (⟨rows, notifySend t.pending⟩, none) from by
      simp only [insertAllOp, h]]
    exact Or.inr rfl
  | some e =>
    rw [show insertAllOp toRow recs t = (⟨rows, t.pending⟩, some e) from by
      simp only [insertAllOp, h]]
    exact Or.inl rfl

theorem updateOp_pending {Rec : Type} (toRow : Rec → Except String Row) (col : Nat)
    (id : String) (rec : Rec) (t : TableState) :
    (updateOp toRow col id rec t).1.pending = t.pending ∨
    (updateOp toRow col id rec t).1.pending = notifySend t.pending := by
  rcases h : Update toRow col id rec t.rows with ⟨rows, e⟩
  cases e with
  | none =>
    rw [show updateOp toRow col id rec t = (⟨rows, notifySend t.pending⟩, none) from by
      simp only [updateOp, h]]
    exact Or.inr rfl
  | some e =>
    rw [show updateOp toRow col id rec t = (⟨rows, t.pending⟩, some e) from by
      simp only [updateOp, h]]
    exact Or.inl rfl

theorem updateAllOp_pending {Rec : Type} (toRow : Rec → Except String Row) (col : Nat)
    (v : String) (rec : Rec) (t : TableState) :
    (updateAllOp toRow col v rec t).1.pending = t.pending ∨
    (updateAllOp toRow col v rec t).1.pending = notifySend t.pending := by
  rcases h : UpdateAll toRow col v rec t.rows with ⟨rows, e⟩
  cases e with
  | none =>
    rw [show updateAllOp toRow col v rec t = (⟨rows, notifySend t.pending⟩, none) from by
      simp only [updateAllOp, h]]
    exact Or.inr rfl
  | some e =>
    rw [show updateAllOp toRow col v rec t = (⟨rows, t.pending⟩, some e) from by
      simp only [updateAllOp, h]]
    exact Or.inl rfl

theorem deleteOp_pending (col : Nat) (id : String) (t : TableState) :
    (deleteOp col id t).1.pending = t.pending ∨
    (deleteOp col id t).1.pending = notifySend t.pending := by
  rcases h : Delete col id t.rows with ⟨rows, e⟩
  cases e with
  | none =>
    rw [show deleteOp col id t = (⟨rows, notifySend t.pending⟩, none) from by
      simp only [deleteOp, h]]
    exact Or.inr rfl
  | some e =>
    rw [show deleteOp col id t = (⟨rows, t.pending⟩, some e) from by
      simp only [deleteOp, h]]
    exact Or.inl rfl

theorem deleteAllOp_pending (col : Nat) (v : String) (t : TableState) :
    (deleteAllOp col v t).1.pending = t.pending ∨
    (deleteAllOp col v t).1.pending = notifySend t.pending := by
  rcases h : DeleteAll col v t.rows with ⟨rows, e⟩
  cases e with
  | none =>
    rw [show deleteAllOp col v t = (⟨rows, notifySend t.pending⟩, none) from by
      simp only [deleteAllOp, h]]
    exact Or.inr rfl
  | some e =>
    rw [show deleteAllOp col v t = (⟨rows, t.pending⟩, some e) from by
      simp only [deleteAllOp, h]]
    exact Or.inl rfl

/-- In every reachable table state the channel holds at most one
notification. -/
theorem reach_pending_le_one {Rec : Type} (toRow : Rec → Except String Row) :
    ∀ t : TableState, Reach toRow t → t.pending ≤ 1 := by
  intro t h
  induction h with
  | openTable rows => exact Nat.zero_le 1
  | insertStep rec _ ih =>
    rcases insertOp_pending toRow rec _ with h1 | h1 <;> rw [h1]
    · exact ih
    · exact notifySend_le_one _ ih
  | insertAllStep recs _ ih =>
    rcases insertAllOp_pending toRow recs _ with h1 | h1 <;> rw [h1]
    · exact ih
    · exact notifySend_le_one _ ih
  | updateStep col id rec _ ih =>
    rcases updateOp_pending toRow col id rec _ with h1 | h1 <;> rw [h1]
    · exact ih
    · exact notifySend_le_one _ ih
  | updateAllStep col v rec _ ih =>
    rcases updateAllOp_pending toRow col v rec _ with h1 | h1 <;> rw [h1]
    · exact ih
    · exact notifySend_le_one _ ih
  | deleteStep col id _ ih =>
    rcases deleteOp_pending col id _ with h1 | h1 <;> rw [h1]
    · exact ih
    · exact notifySend_le_one _ ih
  | deleteAllStep col v _ ih =>
    rcases deleteAllOp_pending col v _ with h1 | h1 <;> rw [h1]
    · exact ih
    · exact notifySend_le_one _ ih
  | consumeStep _ _ ih => exact Nat.le_trans (Nat.sub_le _ _) ih

/-- C5: the `changed` channel holds at most one notification in every
reachable state; the non-blocking send enqueues on an empty channel and
drops the notification when one is already pending; every successful
mutating operation performs exactly this send; and the read-only
operations leave the table state (rows and channel) untouched. -/
theorem claim5_change_channel {Rec : Type} (toRow : Rec → Except String Row)
    (fromRow : Row → Except String Rec) :
    (∀ t : TableState, Reach toRow t → t.pending ≤ 1) ∧
    (notifySend 0 = 1 ∧ ∀ p : Nat, 1 ≤ p → notifySend p = p) ∧
    (∀ (rec : Rec) (t : TableState), (insertOp toRow rec t).2 = none →
      (insertOp toRow rec t).1.pending = notifySend t.pending) ∧
    (∀ (recs : List Rec) (t : TableState), (insertAllOp toRow recs t).2 = none →
      (insertAllOp toRow recs t).1.pending = notifySend t.pending) ∧
    (∀ (col : Nat) (id : String) (rec : Rec) (t : TableState),
      (updateOp toRow col id rec t).2 = none →
      (updateOp toRow col id rec t).1.pending = notifySend t.pending) ∧
    (∀ (col : Nat) (v : String) (rec : Rec) (t : TableState),
      (updateAllOp toRow col v rec t).2 = none →
      (updateAllOp toRow col v rec t).1.pending = notifySend t.pending) ∧
    (∀ (col : Nat) (id : String) (t : TableState), (deleteOp col id t).2 = none →
      (deleteOp col id t).1.pending = notifySend t.pending) ∧
    (∀ (col : Nat) (v : String) (t : TableState), (deleteAllOp col v t).2 = none →
      (deleteAllOp col v t).1.pending = notifySend t.pending) ∧
    (∀ (col : Nat) (id : String) (t : TableState), (selectOp fromRow col id t).1 = t) ∧
    (∀ (col : Nat) (v : String) (t : TableState), (selectAllOp fromRow col v t).1 = t) ∧
    (∀ t : TableState, (allOp fromRow t).1 = t) := by
  refine ⟨reach_pending_le_one toRow, ⟨rfl, ?_⟩, ?_, ?_, ?_, ?_, ?_, ?_,
    fun _ _ _ => rfl, fun _ _ _ => rfl, fun _ => rfl⟩
  · intro p hp
    unfold notifySend
    split <;> omega
  · intro rec t h2
    rcases h : Insert toRow rec t.rows with ⟨rows, e⟩
    cases e with
    | none =>
      rw [show insertOp toRow rec t = (⟨rows, notifySend t.pending⟩, none) from by
        simp only [insertOp, h]]
    | some e =>
      rw [show insertOp toRow rec t = (⟨rows, t.pending⟩, some e) from by
        simp only [insertOp, h]] at h2
      exact absurd h2 (by simp)
  · intro recs t h2
    rcases h : InsertAll toRow recs t.rows with ⟨rows, e⟩
    cases e with
    | none =>
      rw [show insertAllOp toRow recs t = (⟨rows, notifySend t.pending⟩, none) from by
        simp only [insertAllOp, h]]
    | some e =>
      rw [show insertAllOp toRow recs t = (⟨rows, t.pending⟩, some e) from by
        simp only [insertAllOp, h]] at h2
      exact absurd h2 (by simp)
  · intro col id rec t h2
    rcases h : Update toRow col id rec t.rows with ⟨rows, e⟩
    cases e with
    | none =>
      rw [show updateOp toRow col id rec t = (⟨rows, notifySend t.pending⟩, none) from by
        simp only [updateOp, h]]
    | some e =>
      rw [show updateOp toRow col id rec t = (⟨rows, t.pending⟩, some e) from by
        simp only [updateOp, h]] at h2
      exact absurd h2 (by simp)
  · intro col v rec t h2
    rcases h : UpdateAll toRow col v rec t.rows with ⟨rows, e⟩
    cases e with
    | none =>
      rw [show updateAllOp toRow col v rec t = (⟨rows, notifySend t.pending⟩, none) from by
        simp only [updateAllOp, h]]
    | some e =>
      rw [show updateAllOp toRow col v rec t = (⟨rows, t.pending⟩, some e) from by
        simp only [updateAllOp, h]] at h2
      exact absurd h2 (by simp)
  · intro col id t h2
    rcases h : Delete col id t.rows with ⟨rows, e⟩
    cases e with
    | none =>
      rw [show deleteOp col id t = (⟨rows, notifySend t.pending⟩, none) from by
        simp only [deleteOp, h]]
    | some e =>
      rw [show deleteOp col id t = (⟨rows, t.pending⟩, some e) from by
        simp only [deleteOp, h]] at h2
      exact absurd h2 (by simp)
  · intro col v t h2
    rcases h : DeleteAll col v t.rows with ⟨rows, e⟩
    cases e with
    | none =>
      rw [show deleteAllOp col v t = (⟨rows, notifySend t.pending⟩, none) from by
        simp only [deleteAllOp, h]]
    | some e =>
      rw [show deleteAllOp col v t = (⟨rows, t.pending⟩, some e) from by
        simp only [deleteAllOp, h]] at h2
      exact absurd h2 (by simp)

/-- Witness for C5 on a freshly opened one-row table and a successful
insert. -/
theorem claim5_witness :
    (⟨[["a"]], 0⟩ : TableState).pending ≤ 1 ∧
    (insertOp okCodec ["b"] ⟨[], 0⟩).1.pending = notifySend 0 ∧
    (selectOp okCodec 0 "a" ⟨[["a"]], 0⟩).1 = (⟨[["a"]], 0⟩ : TableState) := by
  have h := claim5_change_channel okCodec okCodec
  exact ⟨h.1 _ (Reach.openTable [["a"]]), h.2.2.1 ["b"] ⟨[], 0⟩ rfl,
    h.2.2.2.2.2.2.2.2.1 0 "a" ⟨[["a"]], 0⟩⟩

/-! ### Claim C2: the shutdown handshake -/

/-- C2 counterexample: the state in which `Close()` has already
returned to its caller while the worker has not yet closed the file is
reachable — `Close` is `close(t.close)`, which signals and returns at
once, so the caller does not block until the file is closed, and the
close error (returned by `ListenChange`) never reaches the `Close`
caller. -/
theorem claim2_counterexample :
    ShutdownReachable ⟨true, true, false⟩ ∧
    (⟨true, true, false⟩ : ShutdownState).closeReturned = true ∧
    (⟨true, true, false⟩ : ShutdownState).fileClosed = false :=
  ⟨ShutdownReachable.step ShutdownReachable.start
    (ShutdownStep.callClose ⟨false, false, false⟩ rfl), rfl, rfl⟩

/-- C2 (amended): `Close()` only closes the shutdown channel and
returns immediately; the worker closes the backing file strictly after
that signal (in every reachable state a closed file implies the channel
was closed), and once the signal is seen the worker's file-closing step
is enabled; the error of that final close is returned from
`ListenChange` to the worker's caller, not to the `Close` initiator. -/
theorem claim2_shutdown_order :
    (∀ s : ShutdownState, ShutdownReachable s → s.fileClosed = true →
      s.closeChanClosed = true) ∧
    (∀ s : ShutdownState, s.closeChanClosed = true → s.fileClosed = false →
      ShutdownStep s ⟨s.closeChanClosed, s.closeReturned, true⟩) := by
  constructor
  · intro s hs
    induction hs with
    | start => intro h; exact absurd h (by simp)
    | step hr hstep ih =>
      cases hstep with
      | callClose h => intro hf; rfl
      | workerClose h1 h2 => intro _; exact h1
  · intro s h1 h2
    exact ShutdownStep.workerClose s h1 h2

/-- Witness for C2 (amended) on the concrete shutdown trace. -/
theorem claim2_witness :
    (⟨true, true, true⟩ : ShutdownState).closeChanClosed = true ∧
    ShutdownStep ⟨true, false, false⟩ ⟨true, false, true⟩ :=
  ⟨claim2_shutdown_order.1 ⟨true, true, true⟩
      (ShutdownReachable.step
        (ShutdownReachable.step ShutdownReachable.start
          (ShutdownStep.callClose ⟨false, false, false⟩ rfl))
        (ShutdownStep.workerClose ⟨true, true, false⟩ rfl rfl)) rfl,
   claim2_shutdown_order.2 ⟨true, false, false⟩ rfl rfl⟩

end Scd
